import Mathlib

/-!
Verification of the ec2cluster core (grailbio/reflow `ec2cluster/ec2cluster.go`)
against its natural-language specification.

The Go source manages an elastic EC2 cluster: an `Allocate` entry point, a
grower `loop` that sorts and bin-packs waiter demand into instance launches,
a `reconcile` cycle that prunes terminated instances from the durable state,
and an `update` step that rebuilds the pool-handle map from durable state.

Shallow embedding conventions:
* `reflow.Resources` (a `map[string]float64` defined outside this file's
  package source) is embedded as a function `κ → ℚ` over a finite index
  type of resource kinds, with the operations the source uses
  (`Add`, `Sub`, `Min`, `LessEqualAll`, `ScaledDistance`).
* Go multi-value returns `(v, ok)` are embedded as `α × Bool` so that the
  zero-value conventions of the Go code are represented faithfully.
* The `instanceState` availability tracker lives in a source file that is
  not part of the analysed sources, so the packing loop is parameterised
  over an arbitrary oracle `ma : Resources κ → InstanceConfig κ × Bool`
  standing for `instanceState.MinAvailable`.
-/

section Model

variable {κ : Type} [DecidableEq κ] [Fintype κ]

/-- Embedding of `reflow.Resources`: a vector of quantities indexed by
resource kinds. Quantities are modelled as rationals. -/
def Resources (κ : Type) : Type := κ → ℚ

instance : Inhabited (Resources κ) := ⟨fun _ => 0⟩

instance : DecidableEq (Resources κ) := by
  unfold Resources; infer_instance

/-- `(Resources).Add`: componentwise addition. -/
def Resources.add (a b : Resources κ) : Resources κ := fun i => a i + b i

/-- `(Resources).Sub`: componentwise subtraction. -/
def Resources.sub (a b : Resources κ) : Resources κ := fun i => a i - b i

/-- `(Resources).Min`: componentwise minimum. -/
def Resources.rmin (a b : Resources κ) : Resources κ := fun i => min (a i) (b i)

/-- The zero resource vector (Go zero value of `reflow.Resources`). -/
def Resources.zero : Resources κ := fun _ => 0

/-- `(Resources).LessEqualAll`: less-or-equal in every dimension, as a
Boolean, mirroring the Go method used in branch conditions. -/
def Resources.lessEqualAll (a b : Resources κ) : Bool :=
  decide (∀ i, a i ≤ b i)

/-- Modelled from the spec: `(Resources).ScaledDistance` is defined in the
`reflow` package, outside the analysed sources.  The spec describes it as "a
scalar scaled distance used for ordering by request magnitude"; we model it
as the total of all components. -/
def Resources.scaledDistance (a : Resources κ) : ℚ :=
  ∑ i, a i

/-- Modelled from the spec: `instanceConfig` is defined in the instance
source file, outside the analysed sources.  The spec describes an
InstanceShape as {type identifier, resource capacity, price}. -/
structure InstanceConfig (κ : Type) where
  ctype : String
  res : Resources κ
  price : ℚ

instance : DecidableEq (InstanceConfig κ) := fun a b =>
  decidable_of_iff (a.ctype = b.ctype ∧ a.res = b.res ∧ a.price = b.price)
    (by cases a; cases b; simp)

/-- The Go zero value `instanceConfig\x7b\x7d`. -/
def InstanceConfig.zero : InstanceConfig κ :=
  { ctype := "", res := Resources.zero, price := 0 }

instance : Inhabited (InstanceConfig κ) := ⟨InstanceConfig.zero⟩

/-- Embedding of `waiter`: a pending resource request.  The cancellation
context is embedded as a Boolean `cancelled` (Go: `w.ctx.Err() != nil`);
the completion channel is embedded by recording the numeric tag `wid` of
every waiter that gets notified. -/
structure Waiter (κ : Type) where
  rmin : Resources κ
  rmax : Resources κ
  cancelled : Bool
  wid : ℕ

instance : DecidableEq (Waiter κ) := fun a b =>
  decidable_of_iff
    (a.rmin = b.rmin ∧ a.rmax = b.rmax ∧ a.cancelled = b.cancelled ∧ a.wid = b.wid)
    (by cases a; cases b; simp)

end Model

section Packing

variable {κ : Type} [DecidableEq κ] [Fintype κ]

/-- Insertion of a waiter into a list sorted by ascending scaled distance of
`Min` (the comparator of the `sort.Slice` call in `loop`). -/
def insertByDist (w : Waiter κ) : List (Waiter κ) → List (Waiter κ)
  | [] => [w]
  | v :: rest =>
      if w.rmin.scaledDistance < v.rmin.scaledDistance then w :: v :: rest
      else v :: insertByDist w rest

/-- Sorting the waiter list by ascending scaled distance of `Min`, as done by
the `sort.Slice` call at the top of each `loop` iteration (the Go sort is
unstable; ties are immaterial, and we embed an insertion sort). -/
def sortWaiters : List (Waiter κ) → List (Waiter κ)
  | [] => []
  | w :: rest => insertByDist w (sortWaiters rest)

/-- The inner packing loop of `loop` (the `for wbest := ...` loop):
starting from an accumulated requirement `need` and current candidate
`best`, try to extend the bucket with each further waiter.  Faithful to the
Go `for` statement: the post-statement `i, best = i+1, wbest` executes after
every body execution, so when the `MinAvailable` query fails the failing
query's first return value still overwrites `best` and the breaking waiter
is still consumed.  Returns the final `best` and the waiters left for the
outer loop. -/
def packInner (ma : Resources κ → InstanceConfig κ × Bool) :
    List (Waiter κ) → Resources κ → InstanceConfig κ →
      InstanceConfig κ × List (Waiter κ)
  | [], _, best => (best, [])
  | w :: rest, need, _ =>
      let need' := need.add w.rmin
      let wb := ma need'
      if wb.2 then packInner ma rest need' wb.1
      else (wb.1, rest)

omit [DecidableEq κ] [Fintype κ] in
/-- The inner loop consumes waiters, so the remainder it returns is no
longer than its input. -/
lemma packInner_length_le (ma : Resources κ → InstanceConfig κ × Bool) :
    ∀ (ws : List (Waiter κ)) (need : Resources κ) (best : InstanceConfig κ),
      (packInner ma ws need best).2.length ≤ ws.length
  | [], _, _ => by simp [packInner]
  | w :: rest, need, best => by
      simp only [packInner]
      split
      · exact le_trans (packInner_length_le ma rest _ _) (Nat.le_succ _)
      · exact Nat.le_succ _

/-- The outer packing loop of `loop` (lines building `todo`): each
iteration starts a fresh `need` from the next waiter, skips it if no
instance type satisfies it alone, and otherwise runs the inner loop and
appends the resulting config to `todo`. -/
def packOuter (ma : Resources κ → InstanceConfig κ × Bool) :
    List (Waiter κ) → List (InstanceConfig κ)
  | [] => []
  | w :: rest =>
      if (ma (Resources.zero.add w.rmin)).2 then
        (packInner ma rest (Resources.zero.add w.rmin)
            (ma (Resources.zero.add w.rmin)).1).1 ::
          packOuter ma (packInner ma rest (Resources.zero.add w.rmin)
            (ma (Resources.zero.add w.rmin)).1).2
      else packOuter ma rest
termination_by ws => ws.length
decreasing_by
  · exact Nat.lt_succ_of_le (packInner_length_le ma rest _ _)
  · exact Nat.lt_succ_of_le (Nat.le_refl _)

/-- The full planning phase of one `loop` iteration: sort the waiters by
ascending scaled distance of their `Min`, then run the greedy packing
loops to produce the `todo` list of planned launches. -/
def planLaunches (ma : Resources κ → InstanceConfig κ × Bool)
    (waiters : List (Waiter κ)) : List (InstanceConfig κ) :=
  packOuter ma (sortWaiters waiters)

/-- The packing algorithm as the spec states it (for comparison with the
code's `packInner`): keep extending the prefix while a shape remains
adequate; when adding the next waiter makes the requirement unsatisfiable,
close the bucket with the shape adequate for the prefix **before** that
waiter, and restart accumulation **at** that breaking waiter. -/
def specPackInner (ma : Resources κ → InstanceConfig κ × Bool) :
    List (Waiter κ) → Resources κ → InstanceConfig κ →
      InstanceConfig κ × List (Waiter κ)
  | [], _, best => (best, [])
  | w :: rest, need, best =>
      let need' := need.add w.rmin
      let wb := ma need'
      if wb.2 then specPackInner ma rest need' wb.1
      else (best, w :: rest)

omit [DecidableEq κ] [Fintype κ] in
/-- The spec's inner loop also never lengthens the remainder. -/
lemma specPackInner_length_le (ma : Resources κ → InstanceConfig κ × Bool) :
    ∀ (ws : List (Waiter κ)) (need : Resources κ) (best : InstanceConfig κ),
      (specPackInner ma ws need best).2.length ≤ ws.length
  | [], _, _ => by simp [specPackInner]
  | w :: rest, need, best => by
      simp only [specPackInner]
      split
      · exact le_trans (specPackInner_length_le ma rest _ _) (Nat.le_succ _)
      · exact Nat.le_refl _

/-- The outer packing loop following the spec's narration, built on
`specPackInner`. -/
def specPackOuter (ma : Resources κ → InstanceConfig κ × Bool) :
    List (Waiter κ) → List (InstanceConfig κ)
  | [] => []
  | w :: rest =>
      if (ma (Resources.zero.add w.rmin)).2 then
        (specPackInner ma rest (Resources.zero.add w.rmin)
            (ma (Resources.zero.add w.rmin)).1).1 ::
          specPackOuter ma (specPackInner ma rest (Resources.zero.add w.rmin)
            (ma (Resources.zero.add w.rmin)).1).2
      else specPackOuter ma rest
termination_by ws => ws.length
decreasing_by
  · exact Nat.lt_succ_of_le (specPackInner_length_le ma rest _ _)
  · exact Nat.lt_succ_of_le (Nat.le_refl _)

end Packing

section Satisfy

variable {κ : Type} [DecidableEq κ] [Fintype κ]

/-- The waiter scan run by `loop` when a launch completes successfully
(the `for _, w := range waiters` loop): cancelled waiters are skipped,
waiters whose `Min` fits in the capacity still available are notified and
consume `min(Max, available)`, all others are kept.  Returns
(kept waiters, notified waiters in scan order, remaining capacity). -/
def satisfyScan :
    List (Waiter κ) → Resources κ →
      List (Waiter κ) × List (Waiter κ) × Resources κ
  | [], avail => ([], [], avail)
  | w :: rest, avail =>
      if w.cancelled then satisfyScan rest avail
      else if w.rmin.lessEqualAll avail then
        let r := satisfyScan rest (avail.sub (w.rmax.rmin avail))
        (r.1, w :: r.2.1, r.2.2)
      else
        let r := satisfyScan rest avail
        (w :: r.1, r.2.1, r.2.2)

/-- The kept waiters as the spec narrates them: scanning in order with the
running remaining capacity, keep exactly the non-cancelled waiters whose
`Min` is not covered by what remains at their turn. -/
def specKept : List (Waiter κ) → Resources κ → List (Waiter κ)
  | [], _ => []
  | w :: rest, avail =>
      if w.cancelled then specKept rest avail
      else if w.rmin.lessEqualAll avail then
        specKept rest (avail.sub (w.rmax.rmin avail))
      else w :: specKept rest avail

/-- The notified waiters as the spec narrates them: the non-cancelled
waiters whose `Min` is covered by the remaining capacity at their turn. -/
def specNotified : List (Waiter κ) → Resources κ → List (Waiter κ)
  | [], _ => []
  | w :: rest, avail =>
      if w.cancelled then specNotified rest avail
      else if w.rmin.lessEqualAll avail then
        w :: specNotified rest (avail.sub (w.rmax.rmin avail))
      else specNotified rest avail

/-- The remaining capacity as the spec narrates it: each satisfied waiter
consumes the componentwise minimum of its `Max` and what remains. -/
def specRemaining : List (Waiter κ) → Resources κ → Resources κ
  | [], avail => avail
  | w :: rest, avail =>
      if w.cancelled then specRemaining rest avail
      else if w.rmin.lessEqualAll avail then
        specRemaining rest (avail.sub (w.rmax.rmin avail))
      else specRemaining rest avail

end Satisfy

section Launch

variable {κ : Type} [DecidableEq κ] [Fintype κ]

/-- `maxPending`: the constant bounding concurrent in-flight launches in
`loop`. -/
def maxPending : ℕ := 5

/-- The launch loop of `loop` (`for len(todo) > 0 && npending < maxPending
&& n+npending < c.MaxInstances`): pops planned configs off `todo`, adds
their resources to `pending`, increments `npending`, and starts the
launches.  `n` is the durable instance count read at the top of the
iteration and `maxInstances` the configured ceiling.  Returns (left-over
todo, pending, npending, configs launched this iteration in order). -/
def launchLoop (maxInstances n : ℕ) :
    List (InstanceConfig κ) → Resources κ → ℕ →
      List (InstanceConfig κ) × Resources κ × ℕ × List (InstanceConfig κ)
  | [], pending, npending => ([], pending, npending, [])
  | cfg :: rest, pending, npending =>
      if npending < maxPending ∧ n + npending < maxInstances then
        let r := launchLoop maxInstances n rest (pending.add cfg.res) (npending + 1)
        (r.1, r.2.1, r.2.2.1, cfg :: r.2.2.2)
      else (cfg :: rest, pending, npending, [])

end Launch

section Alloc

/-- Outcome of one `pool.Allocate` attempt inside `Allocate`'s retry loop:
`some a` stands for a nil error with alloc `a`, `none` for a non-nil
error. -/
inductive AllocEvent (α ε : Type) where
  | ctxDone (e : ε)
  | needReady (attempt : Option α)
  | tick (attempt : Option α)

/-- The retry loop of `Allocate` (the `for` / `select` at the bottom of the
function), embedded over a trace of select events.  Each event is one fired
select case together with the outcome of the allocation attempt made in
that case.  `none` means the loop is still running after the trace;
`some (a, e)` is the returned pair `(pool.Alloc, error)`:
* `<-ctx.Done()`  returns `(nil, ctx.Err())`;
* `<-needch` attempts an allocation, returns `(alloc, nil)` on success and
  otherwise re-registers the waiter and keeps looping;
* `<-ticker.C` attempts an allocation, returns `(alloc, nil)` on success
  and otherwise keeps looping. -/
def allocLoop {α ε : Type} : List (AllocEvent α ε) → Option (Option α × Option ε)
  | [] => none
  | AllocEvent.ctxDone e :: _ => some (none, some e)
  | AllocEvent.needReady attempt :: rest =>
      match attempt with
      | some a => some (some a, none)
      | none => allocLoop rest
  | AllocEvent.tick attempt :: rest =>
      match attempt with
      | some a => some (some a, none)
      | none => allocLoop rest

/-- Modelled from the spec: `instanceState.Available` (the availability
tracker's satisfiability test, defined outside the analysed sources).  The
spec's `IsSatisfiable` is true iff some admissible shape could ever satisfy
the requirement, ignoring current demotion. -/
def availableAny {κ : Type} [DecidableEq κ] [Fintype κ]
    (configs : List (InstanceConfig κ)) (r : Resources κ) : Bool :=
  configs.any fun c => r.lessEqualAll c.res

/-- Result of the front portion of `Allocate`, up to and including the
decision to enter the retry loop. -/
inductive AllocEntry (κ : Type) where
  | exhausted
  | fromPool
  | enterLoop (w : Waiter κ)

/-- The front portion of `Allocate`: fail fast with a resources-exhausted
error when no admissible instance type can satisfy `req.Min`; otherwise
try the existing pool when it is non-empty (`poolHit` is the outcome of
that bounded attempt); otherwise register a waiter and enter the retry
loop.  Also returns the list of waiters registered by this call so far, so
that the fail-fast path's behaviour is observable. -/
def allocateEntry {κ : Type} [DecidableEq κ] [Fintype κ]
    (configs : List (InstanceConfig κ)) (size : ℕ) (poolHit : Bool)
    (req : Waiter κ) : AllocEntry κ × List (Waiter κ) :=
  if ¬ availableAny configs req.rmin then (AllocEntry.exhausted, [])
  else if 0 < size ∧ poolHit then (AllocEntry.fromPool, [])
  else (AllocEntry.enterLoop req, [req])

end Alloc

section DurableState

/-- The fields of an `*ec2.Instance` the core reads: its id, its lifecycle
state name, and its public DNS name. -/
structure EC2Inst where
  instanceId : String
  stateName : String
  publicDnsName : String

instance : DecidableEq EC2Inst := fun a b =>
  decidable_of_iff
    (a.instanceId = b.instanceId ∧ a.stateName = b.stateName ∧
      a.publicDnsName = b.publicDnsName)
    (by cases a; cases b; simp)

/-- The durable instance set `map[string]*ec2.Instance`, embedded as an
association list from instance id to descriptor. -/
abbrev InstMap : Type := List (String × EC2Inst)

/-- Map lookup. -/
def lookupId {β : Type} (m : List (String × β)) (id : String) : Option β :=
  match m with
  | [] => none
  | p :: rest => if p.1 = id then some p.2 else lookupId rest id

/-- The key set of an association list, in entry order. -/
def keysOf {β : Type} (m : List (String × β)) : List String :=
  m.map Prod.fst

/-- `remove`: delete the given instance ids from the durable map. -/
def removeIds (m : InstMap) (ids : List String) : InstMap :=
  m.filter fun p => decide (p.1 ∉ ids)

/-- Go map assignment `instances[*inst.InstanceId] = inst` (the body of
`add`): replace the entry when the key exists, otherwise append it. -/
def insertInst (m : InstMap) (inst : EC2Inst) : InstMap :=
  if (lookupId m inst.instanceId).isSome then
    m.map fun p => if p.1 = inst.instanceId then (inst.instanceId, inst) else p
  else m ++ [(inst.instanceId, inst)]

/-- `ec2MaxFilter`: the maximum number of filter expressions permitted in
EC2 API calls. -/
def ec2MaxFilter : ℕ := 200

/-- The paging of instance ids in `reconcile` (`if len(instanceIds) >
ec2MaxFilter` take a full page, else take the rest). -/
def chunkIds (ids : List String) : List (List String) :=
  if ids = [] then []
  else if ec2MaxFilter < ids.length then
    ids.take ec2MaxFilter :: chunkIds (ids.drop ec2MaxFilter)
  else [ids]
termination_by ids.length
decreasing_by
  rename_i hlen
  rw [List.length_drop]
  exact Nat.sub_lt (lt_of_le_of_lt (Nat.zero_le _) hlen) (by norm_num [ec2MaxFilter])

/-- The lifecycle states `reconcile` treats as down. -/
def deadStates : List String := ["shutting-down", "terminated", "stopping", "stopped"]

/-- Processing of one describe response page in `reconcile`: instances
absent from the durable map are skipped (unrelated instances do show up in
responses), instances in a terminal or stopping state are only logged, and
every other reported instance is marked live. -/
def pageLive (m : InstMap) (resp : List (String × String)) : List String :=
  resp.filterMap fun p =>
    if (lookupId m p.1).isNone then none
    else if p.2 ∈ deadStates then none
    else some p.1

/-- The paged describe loop of `reconcile`: each page is sent to the
provider's describe operation; the first failing call aborts the cycle with
that error, otherwise the live ids of all pages are collected. -/
def livePages {ε : Type} (m : InstMap)
    (describe : List String → Except ε (List (String × String))) :
    List (List String) → Except ε (List String)
  | [] => Except.ok []
  | pg :: rest =>
      match describe pg with
      | Except.error e => Except.error e
      | Except.ok resp =>
          match livePages m describe rest with
          | Except.error e => Except.error e
          | Except.ok live => Except.ok (pageLive m resp ++ live)

/-- `reconcile`: load the durable map, page through its ids querying the
provider, classify as dead every durable id not marked live, and remove
exactly the dead ids.  A describe failure is returned as the cycle's error
before any removal happens. -/
def reconcile {ε : Type} (m : InstMap)
    (describe : List String → Except ε (List (String × String))) :
    Except ε InstMap :=
  match livePages m describe (chunkIds (keysOf m)) with
  | Except.error e => Except.error e
  | Except.ok live =>
      Except.ok (removeIds m ((keysOf m).filter fun id => decide (id ∉ live)))

/-- One reconcile cycle as `maintain` drives it: a reconcile error is
logged and the durable state keeps its previous value. -/
def maintainStep {ε : Type} (m : InstMap)
    (describe : List String → Except ε (List (String × String))) : InstMap :=
  match reconcile m describe with
  | Except.error _ => m
  | Except.ok m2 => m2

end DurableState

section PoolUpdate

variable {χ : Type}

/-- Go map read `c.pools[id]`: nil both when the key is missing and when a
nil handle was stored. -/
def poolAt (pools : List (String × Option χ)) (id : String) : Option χ :=
  (lookupId pools id).join

/-- Go map assignment on the pools map. -/
def setPool (pools : List (String × Option χ)) (id : String) (v : Option χ) :
    List (String × Option χ) :=
  if (lookupId pools id).isSome then
    pools.map fun p => if p.1 = id then (id, v) else p
  else pools ++ [(id, v)]

/-- The first loop of `update`: for every durable entry whose pool handle
is nil, construct a handle from the instance address and store it under the
instance's id (`client.New` may fail, in which case a nil handle is
stored).  `mk` is the handle constructor. -/
def addMissingPools (mk : String → Option χ) :
    List (String × EC2Inst) → List (String × Option χ) → List (String × Option χ)
  | [], pools => pools
  | (id, inst) :: rest, pools =>
      if (poolAt pools id).isNone then
        addMissingPools mk rest (setPool pools inst.instanceId (mk inst.publicDnsName))
      else addMissingPools mk rest pools

/-- `update`: rebuild the pool map from the durable instance set — add a
handle for every durable entry that lacks one, then drop every pool entry
whose durable backing is gone. -/
def updatePools (mk : String → Option χ) (m : InstMap)
    (pools : List (String × Option χ)) : List (String × Option χ) :=
  (addMissingPools mk m pools).filter fun p => (lookupId m p.1).isSome

end PoolUpdate

section Grower

variable {κ : Type} [DecidableEq κ] [Fintype κ]

/-- Total resources of a list of in-flight launch configs. -/
def sumRes (l : List (InstanceConfig κ)) : Resources κ :=
  l.foldr (fun c acc => acc.add c.res) Resources.zero

/-- The working state of the `loop` goroutine: the waiter list, the
`pending` resource total, the `npending` counter, the multiset of launches
started but not yet reported on `done` (implicit in the Go code as the set
of outstanding `launch` goroutines), and the durable instance map. -/
structure GrowState (κ : Type) where
  waiters : List (Waiter κ)
  pending : Resources κ
  npending : ℕ
  inflight : List (InstanceConfig κ)
  instances : InstMap

/-- The planning-and-launch phase of one `loop` iteration: sort the
waiters in place, pack them into `todo`, then start launches while both
caps hold.  Waiters are not consumed by planning; they stay registered
until satisfied. -/
def launchPhase (ma : Resources κ → InstanceConfig κ × Bool)
    (maxInstances : ℕ) (s : GrowState κ) : GrowState κ :=
  let sorted := sortWaiters s.waiters
  let todo := packOuter ma sorted
  let r := launchLoop maxInstances s.instances.length todo s.pending s.npending
  { s with
      waiters := sorted
      pending := r.2.1
      npending := r.2.2.1
      inflight := s.inflight ++ r.2.2.2 }

/-- The `case inst := <-done` handler when the launch failed
(`inst.Err() != nil`): `pending` and `npending` are rolled back and the
loop continues without touching the waiters or durable state.  The
completed launch is one of the in-flight ones, given by the decomposition
`inflight = pre ++ cfg :: post`. -/
def doneFailureStep (s : GrowState κ) (pre post : List (InstanceConfig κ))
    (cfg : InstanceConfig κ) : GrowState κ :=
  { s with
      pending := s.pending.sub cfg.res
      npending := s.npending - 1
      inflight := pre ++ post }

/-- The `case inst := <-done` handler when the launch succeeded: `pending`
and `npending` are rolled back, the instance is added to the durable map
(`c.add`), and the waiter scan notifies every satisfiable waiter from the
new instance's capacity. -/
def doneSuccessStep (s : GrowState κ) (pre post : List (InstanceConfig κ))
    (cfg : InstanceConfig κ) (inst : EC2Inst) : GrowState κ :=
  { s with
      pending := s.pending.sub cfg.res
      npending := s.npending - 1
      inflight := pre ++ post
      instances := insertInst s.instances inst
      waiters := (satisfyScan s.waiters cfg.res).1 }

/-- The `case w := <-c.wait` handler: already-cancelled waiters are pruned
and the new waiter is appended. -/
def arriveStep (s : GrowState κ) (w : Waiter κ) : GrowState κ :=
  { s with waiters := (s.waiters.filter fun v => !v.cancelled) ++ [w] }

/-- One step of the `loop` goroutine, as a relation: a planning/launch
phase, a completed launch (failure or success, the completed launch being
one of the in-flight ones), or a new waiter arrival. -/
inductive GrowStep (ma : Resources κ → InstanceConfig κ × Bool)
    (maxInstances : ℕ) : GrowState κ → GrowState κ → Prop where
  | launch (s : GrowState κ) :
      GrowStep ma maxInstances s (launchPhase ma maxInstances s)
  | doneFailure (s : GrowState κ) (pre post : List (InstanceConfig κ))
      (cfg : InstanceConfig κ) (h : s.inflight = pre ++ cfg :: post) :
      GrowStep ma maxInstances s (doneFailureStep s pre post cfg)
  | doneSuccess (s : GrowState κ) (pre post : List (InstanceConfig κ))
      (cfg : InstanceConfig κ) (inst : EC2Inst)
      (h : s.inflight = pre ++ cfg :: post) :
      GrowStep ma maxInstances s (doneSuccessStep s pre post cfg inst)
  | arrive (s : GrowState κ) (w : Waiter κ) :
      GrowStep ma maxInstances s (arriveStep s w)

/-- The initial state of `loop`: no waiters, zero pending, nothing in
flight. -/
def initGrowState (m : InstMap) : GrowState κ :=
  { waiters := []
    pending := Resources.zero
    npending := 0
    inflight := []
    instances := m }

/-- The launch accounting invariant: `npending` counts the in-flight
launches and `pending` totals their configured resources. -/
def PendingInv (s : GrowState κ) : Prop :=
  s.npending = s.inflight.length ∧ s.pending = sumRes s.inflight

end Grower

section ClaimC1

/-- A one-dimensional resource vector with the given quantity. -/
def resOf1 (q : ℚ) : Resources (Fin 1) := fun _ => q

/-- A concrete catalog shape with capacity 2. -/
def cfgSmall : InstanceConfig (Fin 1) := ⟨"small", resOf1 2, 1⟩

/-- A concrete `MinAvailable` oracle over a catalog holding only
`cfgSmall`: requirements within capacity 2 are served by `cfgSmall`, all
others fail (returning the Go zero value, as a Go implementation of the
`(instanceConfig, bool)` signature does). -/
def maEx : Resources (Fin 1) → InstanceConfig (Fin 1) × Bool := fun need =>
  if need.lessEqualAll cfgSmall.res then (cfgSmall, true) else (InstanceConfig.zero, false)

/-- A live waiter requesting exactly `q` of the single resource. -/
def wEx (q : ℚ) (n : ℕ) : Waiter (Fin 1) := ⟨resOf1 q, resOf1 q, false, n⟩

/-- C1.  The claim says the planning phase packs greedily: when adding the
next waiter makes the accumulated requirement unsatisfiable, the bucket is
closed with the minimal shape adequate for the prefix before that waiter
and a new accumulation starts at that breaking waiter.  The code disagrees:
the post-statement of the Go inner `for` runs once more after the failing
`MinAvailable` query, so the bucket's shape is overwritten with the failing
query's (zero-value) result and the breaking waiter is consumed.  On two
waiters of sizes 1 and 2 against a catalog whose only shape has capacity 2,
the code plans a single launch of the zero-value `instanceConfig` (empty
type, zero resources) and drops the second waiter from planning, where the
claim's packing would plan two `cfgSmall` launches. -/
theorem c1_grower_packing_code_bug :
    planLaunches maEx [wEx 1 0, wEx 2 1] = [InstanceConfig.zero] ∧
    specPackOuter maEx (sortWaiters [wEx 1 0, wEx 2 1]) = [cfgSmall, cfgSmall] ∧
    InstanceConfig.zero ≠ cfgSmall := by
  refine ⟨?_, ?_, ?_⟩
  · simp +decide [planLaunches, sortWaiters, insertByDist, packOuter, packInner, maEx,
      Resources.lessEqualAll, Resources.scaledDistance, resOf1, cfgSmall, wEx,
      Resources.zero, Resources.add, InstanceConfig.zero, Fin.sum_univ_one]
  · simp +decide [sortWaiters, insertByDist, specPackOuter, specPackInner, maEx,
      Resources.lessEqualAll, Resources.scaledDistance, resOf1, cfgSmall, wEx,
      Resources.zero, Resources.add, InstanceConfig.zero, Fin.sum_univ_one]
  · intro h
    have : InstanceConfig.zero.ctype (κ := Fin 1) = cfgSmall.ctype := by rw [h]
    simp [InstanceConfig.zero, cfgSmall] at this

end ClaimC1

section ClaimC2

variable {κ : Type} [DecidableEq κ] [Fintype κ]

omit [DecidableEq κ] in
/-- The code's success-path scan computes exactly the kept waiters, the
notified waiters, and the remaining capacity as the spec narrates them. -/
lemma satisfyScan_eq (ws : List (Waiter κ)) (avail : Resources κ) :
    satisfyScan ws avail =
      (specKept ws avail, specNotified ws avail, specRemaining ws avail) := by
  induction ws generalizing avail with
  | nil => simp [satisfyScan, specKept, specNotified, specRemaining]
  | cons w rest ih =>
      simp only [satisfyScan, specKept, specNotified, specRemaining]
      by_cases hc : w.cancelled
      · simp [hc, ih]
      · by_cases hle : w.rmin.lessEqualAll avail
        · simp [hc, hle, ih]
        · simp [hc, hle, ih]

omit [DecidableEq κ] in
/-- Only live waiters are ever notified. -/
lemma specNotified_not_cancelled (ws : List (Waiter κ)) (avail : Resources κ) :
    ∀ w ∈ specNotified ws avail, w.cancelled = false := by
  induction ws generalizing avail with
  | nil => simp [specNotified]
  | cons v rest ih =>
      simp only [specNotified]
      by_cases hc : v.cancelled
      · simp only [hc, if_true]
        exact ih avail
      · by_cases hle : v.rmin.lessEqualAll avail
        · simp only [hc, if_false, hle, if_true, Bool.false_eq_true, List.mem_cons]
          intro w hw
          rcases hw with hw | hw
          · subst hw
            exact Bool.not_eq_true _ ▸ (by simpa using hc)
          · exact ih _ w hw
        · simp only [hc, hle, if_false, Bool.false_eq_true]
          exact ih avail

omit [DecidableEq κ] in
/-- Only live waiters are kept on the waiter list. -/
lemma specKept_not_cancelled (ws : List (Waiter κ)) (avail : Resources κ) :
    ∀ w ∈ specKept ws avail, w.cancelled = false := by
  induction ws generalizing avail with
  | nil => simp [specKept]
  | cons v rest ih =>
      simp only [specKept]
      by_cases hc : v.cancelled
      · simp only [hc, if_true]
        exact ih avail
      · by_cases hle : v.rmin.lessEqualAll avail
        · simp only [hc, hle, if_true, if_false, Bool.false_eq_true]
          exact ih _
        · simp only [hc, hle, if_false, Bool.false_eq_true, List.mem_cons]
          intro w hw
          rcases hw with hw | hw
          · subst hw
            simpa using hc
          · exact ih avail w hw

omit [DecidableEq κ] in
/-- Every live waiter ends up either kept or notified: the scan drops
nobody except the cancelled. -/
lemma specKept_notified_count (ws : List (Waiter κ)) (avail : Resources κ) :
    (specKept ws avail).length + (specNotified ws avail).length =
      (ws.filter fun w => !w.cancelled).length := by
  induction ws generalizing avail with
  | nil => simp [specKept, specNotified]
  | cons v rest ih =>
      cases hc : v.cancelled
      · by_cases hle : v.rmin.lessEqualAll avail
        · have := ih (avail.sub (v.rmax.rmin avail))
          simp only [specKept, specNotified, hc, hle, List.filter, Bool.not_false,
            if_true, if_false, Bool.false_eq_true, List.length_cons]
          omega
        · have := ih avail
          simp only [specKept, specNotified, hc, hle, List.filter, Bool.not_false,
            if_true, if_false, Bool.false_eq_true, List.length_cons]
          omega
      · have := ih avail
        simp only [specKept, specNotified, hc, List.filter, Bool.not_true]
        simpa using this

/-- Lookup after Go-map-style in-place replacement of the entry at `tid`. -/
lemma lookupId_mapReplace {β : Type} (m : List (String × β)) (tid : String)
    (v : β) (id : String) :
    lookupId (m.map fun p => if p.1 = tid then (tid, v) else p) id =
      if id = tid then (lookupId m tid).map (fun _ => v) else lookupId m id := by
  induction m with
  | nil => simp [lookupId]
  | cons p rest ih =>
      simp only [List.map_cons]
      by_cases hp : p.1 = tid
      · by_cases hid : id = tid
        · subst hid
          simp [lookupId, hp]
        · have h1 : ¬ tid = id := fun h => hid h.symm
          have h2 : ¬ p.1 = id := fun h => hid (h.symm.trans hp)
          simp only [hp, if_true, lookupId, h1, if_false, ih, hid, h2]
      · by_cases hid : id = tid
        · subst hid
          simp only [hp, if_false, lookupId, ih, if_pos rfl]
        · simp only [hp, if_false, lookupId, ih, hid]

/-- Lookup distributes over append, preferring the front list. -/
lemma lookupId_append {β : Type} (l1 l2 : List (String × β)) (id : String) :
    lookupId (l1 ++ l2) id = (lookupId l1 id).or (lookupId l2 id) := by
  induction l1 with
  | nil => simp [lookupId]
  | cons p rest ih =>
      by_cases hp : p.1 = id
      · simp [lookupId, hp]
      · simp [lookupId, hp, ih]

/-- `insertInst` is Go map assignment: the new id maps to the new
descriptor and every other id is untouched. -/
lemma lookupId_insertInst (m : InstMap) (inst : EC2Inst) (id : String) :
    lookupId (insertInst m inst) id =
      if id = inst.instanceId then some inst else lookupId m id := by
  unfold insertInst
  by_cases hs : (lookupId m inst.instanceId).isSome
  · simp only [hs, if_true, lookupId_mapReplace]
    by_cases hid : id = inst.instanceId
    · obtain ⟨v, hv⟩ := Option.isSome_iff_exists.mp hs
      simp [hid, hv]
    · simp [hid]
  · simp only [hs, if_false, Bool.false_eq_true, lookupId_append]
    by_cases hid : id = inst.instanceId
    · subst hid
      rw [Option.not_isSome_iff_eq_none.mp hs]
      simp [lookupId]
    · have hone : lookupId [(inst.instanceId, inst)] id = none := by
        have hne : ¬ inst.instanceId = id := fun h => hid h.symm
        simp [lookupId, hne]
      rw [hone, if_neg hid]
      cases lookupId m id <;> simp

end ClaimC2

/-- C2.  When a launch completes successfully, the `loop` handler adds the
instance to the durable state (`c.add`, embedded as `insertInst`: the new
id maps to the new descriptor, every other id is unchanged), and scans the
current waiters against the new instance's capacity: the remaining waiter
list is exactly the spec's `specKept` (live waiters whose `Min` is not
covered by what remains at their turn), the notified waiters are exactly
the spec's `specNotified` (live waiters whose `Min` is covered, each
consuming `min(Max, remaining)` per `specRemaining`), no cancelled waiter
is kept or signalled, and every live waiter is accounted for either as
kept or as notified. -/
theorem c2_done_success_waiter_scan {κ : Type} [DecidableEq κ] [Fintype κ]
    (s : GrowState κ) (pre post : List (InstanceConfig κ))
    (cfg : InstanceConfig κ) (inst : EC2Inst) :
    (∀ id, lookupId (doneSuccessStep s pre post cfg inst).instances id =
        if id = inst.instanceId then some inst else lookupId s.instances id) ∧
    (doneSuccessStep s pre post cfg inst).waiters = specKept s.waiters cfg.res ∧
    satisfyScan s.waiters cfg.res =
      (specKept s.waiters cfg.res, specNotified s.waiters cfg.res,
        specRemaining s.waiters cfg.res) ∧
    (∀ w ∈ specNotified s.waiters cfg.res, w.cancelled = false) ∧
    (∀ w ∈ specKept s.waiters cfg.res, w.cancelled = false) ∧
    (specKept s.waiters cfg.res).length + (specNotified s.waiters cfg.res).length =
      (s.waiters.filter fun w => !w.cancelled).length := by
  refine ⟨fun id => lookupId_insertInst s.instances inst id, ?_,
    satisfyScan_eq _ _, specNotified_not_cancelled _ _,
    specKept_not_cancelled _ _, specKept_notified_count _ _⟩
  simp [doneSuccessStep, satisfyScan_eq]

/-- A concrete instance descriptor. -/
def inst0 : EC2Inst := ⟨"i-1", "running", "dns1"⟩

/-- A concrete grower state with one live waiter and one in-flight launch. -/
def gs0 : GrowState (Fin 1) :=
  { waiters := [wEx 1 0]
    pending := resOf1 2
    npending := 1
    inflight := [cfgSmall]
    instances := [] }

/-- Witness for C2 at a concrete state. -/
theorem c2_done_success_waiter_scan_witness :
    (∀ id, lookupId (doneSuccessStep gs0 [] [] cfgSmall inst0).instances id =
        if id = inst0.instanceId then some inst0 else lookupId gs0.instances id) ∧
    (doneSuccessStep gs0 [] [] cfgSmall inst0).waiters = specKept gs0.waiters cfgSmall.res ∧
    satisfyScan gs0.waiters cfgSmall.res =
      (specKept gs0.waiters cfgSmall.res, specNotified gs0.waiters cfgSmall.res,
        specRemaining gs0.waiters cfgSmall.res) ∧
    (∀ w ∈ specNotified gs0.waiters cfgSmall.res, w.cancelled = false) ∧
    (∀ w ∈ specKept gs0.waiters cfgSmall.res, w.cancelled = false) ∧
    (specKept gs0.waiters cfgSmall.res).length + (specNotified gs0.waiters cfgSmall.res).length =
      (gs0.waiters.filter fun w => !w.cancelled).length :=
  c2_done_success_waiter_scan gs0 [] [] cfgSmall inst0

section ClaimC9

variable {κ : Type} [DecidableEq κ] [Fintype κ]

omit [DecidableEq κ] [Fintype κ] in
/-- Pointwise value of the in-flight resource total. -/
lemma sumRes_apply (l : List (InstanceConfig κ)) (i : κ) :
    sumRes l i = (l.map fun c => c.res i).sum := by
  induction l with
  | nil => rfl
  | cons c rest ih =>
      show (sumRes rest).add c.res i = _
      simp only [Resources.add, List.map_cons, List.sum_cons, ih]
      ring

omit [DecidableEq κ] [Fintype κ] in
/-- Adding the zero vector is the identity. -/
lemma Resources.add_zero_right (a : Resources κ) : a.add Resources.zero = a := by
  funext i
  simp [Resources.add, Resources.zero]

omit [DecidableEq κ] [Fintype κ] in
/-- Removing one completed launch from the in-flight total subtracts
exactly its configured resources. -/
lemma sumRes_remove_middle (pre post : List (InstanceConfig κ))
    (cfg : InstanceConfig κ) :
    (sumRes (pre ++ cfg :: post)).sub cfg.res = sumRes (pre ++ post) := by
  funext i
  simp [Resources.sub, sumRes_apply]
  ring

omit [DecidableEq κ] [Fintype κ] in
/-- The launch loop increments `npending` once per started launch. -/
lemma launchLoop_npending (mi n : ℕ) :
    ∀ (todo : List (InstanceConfig κ)) (pending : Resources κ) (np : ℕ),
      (launchLoop mi n todo pending np).2.2.1 =
        np + (launchLoop mi n todo pending np).2.2.2.length
  | [], _, _ => by simp [launchLoop]
  | cfg :: rest, pending, np => by
      simp only [launchLoop]
      split
      · simp only [List.length_cons]
        rw [launchLoop_npending mi n rest (pending.add cfg.res) (np + 1)]
        omega
      · simp

omit [DecidableEq κ] [Fintype κ] in
/-- The launch loop adds exactly the started launches' resources to
`pending`. -/
lemma launchLoop_pending (mi n : ℕ) :
    ∀ (todo : List (InstanceConfig κ)) (pending : Resources κ) (np : ℕ),
      (launchLoop mi n todo pending np).2.1 =
        pending.add (sumRes (launchLoop mi n todo pending np).2.2.2)
  | [], pending, _ => by
      simp [launchLoop, sumRes, Resources.add_zero_right]
  | cfg :: rest, pending, np => by
      simp only [launchLoop]
      split
      · rw [launchLoop_pending mi n rest (pending.add cfg.res) (np + 1)]
        funext i
        simp only [Resources.add, sumRes_apply, List.map_cons, List.sum_cons]
        ring
      · simp [sumRes, Resources.add_zero_right]

omit [DecidableEq κ] [Fintype κ] in
/-- The launch loop starts a prefix of `todo` and leaves the rest. -/
lemma launchLoop_take_drop (mi n : ℕ) :
    ∀ (todo : List (InstanceConfig κ)) (pending : Resources κ) (np : ℕ),
      (launchLoop mi n todo pending np).2.2.2 =
        todo.take (launchLoop mi n todo pending np).2.2.2.length ∧
      (launchLoop mi n todo pending np).1 =
        todo.drop (launchLoop mi n todo pending np).2.2.2.length
  | [], _, _ => by simp [launchLoop]
  | cfg :: rest, pending, np => by
      simp only [launchLoop]
      split
      · obtain ⟨h1, h2⟩ := launchLoop_take_drop mi n rest (pending.add cfg.res) (np + 1)
        constructor
        · simp only [List.length_cons, List.take_succ_cons]
          exact congrArg (cfg :: ·) h1
        · simp only [List.length_cons, List.drop_succ_cons]
          exact h2
      · simp

omit [DecidableEq κ] [Fintype κ] in
/-- The launch loop never exceeds the in-flight cap. -/
lemma launchLoop_cap_pending (mi n : ℕ) :
    ∀ (todo : List (InstanceConfig κ)) (pending : Resources κ) (np : ℕ),
      np ≤ maxPending → (launchLoop mi n todo pending np).2.2.1 ≤ maxPending
  | [], _, np => by simp [launchLoop]
  | cfg :: rest, pending, np => by
      intro h
      simp only [launchLoop]
      split
      · rename_i hcond
        exact launchLoop_cap_pending mi n rest (pending.add cfg.res) (np + 1) hcond.1
      · exact h

omit [DecidableEq κ] [Fintype κ] in
/-- The launch loop never exceeds the fleet ceiling. -/
lemma launchLoop_cap_fleet (mi n : ℕ) :
    ∀ (todo : List (InstanceConfig κ)) (pending : Resources κ) (np : ℕ),
      n + np ≤ mi → n + (launchLoop mi n todo pending np).2.2.1 ≤ mi
  | [], _, np => by simp [launchLoop]
  | cfg :: rest, pending, np => by
      intro h
      simp only [launchLoop]
      split
      · rename_i hcond
        exact launchLoop_cap_fleet mi n rest (pending.add cfg.res) (np + 1) hcond.2
      · exact h

omit [DecidableEq κ] in
/-- Single-step preservation of the pending accounting invariant. -/
lemma pendingInv_step (ma : Resources κ → InstanceConfig κ × Bool)
    (maxI : ℕ) (s s' : GrowState κ)
    (hinv : PendingInv s) (hstep : GrowStep ma maxI s s') : PendingInv s' := by
  obtain ⟨hn, hp⟩ := hinv
  cases hstep with
  | launch =>
      constructor
      · show (launchLoop _ _ _ _ _).2.2.1 = (s.inflight ++ _).length
        rw [launchLoop_npending, List.length_append, hn]
      · show (launchLoop _ _ _ _ _).2.1 = sumRes (s.inflight ++ _)
        rw [launchLoop_pending, hp]
        funext i
        simp only [Resources.add, sumRes_apply, List.map_append, List.sum_append]
  | doneFailure pre post cfg h =>
      constructor
      · show s.npending - 1 = (pre ++ post).length
        rw [hn, h]
        simp only [List.length_append, List.length_cons]
        omega
      · show s.pending.sub cfg.res = sumRes (pre ++ post)
        rw [hp, h, sumRes_remove_middle]
  | doneSuccess pre post cfg inst h =>
      constructor
      · show s.npending - 1 = (pre ++ post).length
        rw [hn, h]
        simp only [List.length_append, List.length_cons]
        omega
      · show s.pending.sub cfg.res = sumRes (pre ++ post)
        rw [hp, h, sumRes_remove_middle]
  | arrive w =>
      exact ⟨hn, hp⟩

/-- C9.  The launch accounting of `loop` is an inductive invariant: at the
start, and after every loop event (planning and launching, a completed
launch — success or failure alike — or a waiter arrival), `npending`
equals the number of launches started but not yet completed and `pending`
equals the sum of those launches' configured resources: each started
launch adds its config's resources and increments `npending`, and each
completion subtracts exactly those resources and decrements `npending`. -/
theorem c9_pending_accounting_invariant {κ : Type} [DecidableEq κ] [Fintype κ] :
    (∀ m : InstMap, PendingInv (initGrowState (κ := κ) m)) ∧
    (∀ (ma : Resources κ → InstanceConfig κ × Bool) (maxI : ℕ)
        (s s' : GrowState κ),
      PendingInv s → GrowStep ma maxI s s' → PendingInv s') := by
  constructor
  · intro m
    exact ⟨rfl, rfl⟩
  · intro ma maxI s s' hinv hstep
    exact pendingInv_step ma maxI s s' hinv hstep

/-- Witness for C9: the invariant transports across a concrete
success-completion step from the concrete state `gs0`. -/
theorem c9_pending_accounting_invariant_witness :
    PendingInv (doneSuccessStep gs0 [] [] cfgSmall inst0) :=
  (c9_pending_accounting_invariant (κ := Fin 1)).2 maEx 10 gs0
    (doneSuccessStep gs0 [] [] cfgSmall inst0)
    ⟨rfl, by funext i; simp [gs0, sumRes, Resources.add, Resources.zero, resOf1, cfgSmall]⟩
    (GrowStep.doneSuccess gs0 [] [] cfgSmall inst0 rfl)

end ClaimC9

section ClaimC5

variable {κ : Type} [DecidableEq κ] [Fintype κ]

/-- The two launch caps as a state predicate: at most `maxPending`
launches in flight, and live plus pending instances within the configured
ceiling. -/
def CapInv (maxI : ℕ) (s : GrowState κ) : Prop :=
  s.npending ≤ maxPending ∧ s.instances.length + s.npending ≤ maxI

omit [DecidableEq κ] [Fintype κ] in
/-- Go map assignment grows the map by at most one entry. -/
lemma insertInst_length_le (m : InstMap) (inst : EC2Inst) :
    (insertInst m inst).length ≤ m.length + 1 := by
  unfold insertInst
  split
  · simp
  · simp

omit [DecidableEq κ] [Fintype κ] in
/-- Every launch the loop starts is started strictly below both caps. -/
lemma launchLoop_guard (mi n : ℕ) :
    ∀ (todo : List (InstanceConfig κ)) (pending : Resources κ) (np k : ℕ),
      k < (launchLoop mi n todo pending np).2.2.2.length →
        np + k < maxPending ∧ n + (np + k) < mi
  | [], _, np, k => by simp [launchLoop]
  | cfg :: rest, pending, np, k => by
      simp only [launchLoop]
      split
      · rename_i hcond
        intro hk
        cases k with
        | zero => simpa using hcond
        | succ k' =>
            have hk' : k' < (launchLoop mi n rest (pending.add cfg.res) (np + 1)).2.2.2.length := by
              simpa using hk
            have := launchLoop_guard mi n rest (pending.add cfg.res) (np + 1) k' hk'
            omega
      · intro hk
        simp at hk

omit [DecidableEq κ] in
/-- Single-step preservation of the launch caps, given the pending
accounting invariant. -/
lemma capInv_step (ma : Resources κ → InstanceConfig κ × Bool)
    (maxI : ℕ) (s s' : GrowState κ) (hpen : PendingInv s)
    (hcap : CapInv maxI s) (hstep : GrowStep ma maxI s s') : CapInv maxI s' := by
  obtain ⟨hc1, hc2⟩ := hcap
  cases hstep with
  | launch =>
      constructor
      · exact launchLoop_cap_pending maxI s.instances.length _ _ _ hc1
      · exact launchLoop_cap_fleet maxI s.instances.length _ _ _ hc2
  | doneFailure pre post cfg h =>
      constructor
      · exact le_trans (Nat.sub_le _ _) hc1
      · exact le_trans (Nat.add_le_add_left (Nat.sub_le _ _) _) hc2
  | doneSuccess pre post cfg inst h =>
      have hge : 1 ≤ s.npending := by
        rw [hpen.1, h]
        simp only [List.length_append, List.length_cons]
        omega
      constructor
      · exact le_trans (Nat.sub_le _ _) hc1
      · calc (insertInst s.instances inst).length + (s.npending - 1)
            ≤ (s.instances.length + 1) + (s.npending - 1) :=
              Nat.add_le_add_right (insertInst_length_le _ _) _
          _ = s.instances.length + s.npending := by omega
          _ ≤ maxI := hc2
  | arrive w =>
      exact ⟨hc1, hc2⟩

/-- C5.  The Grower's launching respects both caps: `maxPending = 5`, the
cap predicate (at most `maxPending` in flight, live plus pending at most
`MaxInstances`) is preserved by every loop step given the accounting
invariant, every individual launch is initiated only while the in-flight
count is strictly below `maxPending` and the live-plus-pending total is
strictly below `MaxInstances`, and the planned launches beyond the caps
are exactly the left-over `todo` suffix, not started in that iteration. -/
theorem c5_launch_caps {κ : Type} [DecidableEq κ] [Fintype κ] :
    maxPending = 5 ∧
    (∀ (ma : Resources κ → InstanceConfig κ × Bool) (maxI : ℕ)
        (s s' : GrowState κ),
      PendingInv s → CapInv maxI s → GrowStep ma maxI s s' → CapInv maxI s') ∧
    (∀ (mi n : ℕ) (todo : List (InstanceConfig κ)) (pending : Resources κ)
        (np k : ℕ),
      (k < (launchLoop mi n todo pending np).2.2.2.length →
        np + k < maxPending ∧ n + (np + k) < mi) ∧
      (launchLoop mi n todo pending np).2.2.2 =
        todo.take (launchLoop mi n todo pending np).2.2.2.length ∧
      (launchLoop mi n todo pending np).1 =
        todo.drop (launchLoop mi n todo pending np).2.2.2.length) := by
  refine ⟨rfl, capInv_step, ?_⟩
  intro mi n todo pending np k
  exact ⟨launchLoop_guard mi n todo pending np k,
    (launchLoop_take_drop mi n todo pending np).1,
    (launchLoop_take_drop mi n todo pending np).2⟩

/-- Witness for C5: the caps transport across a concrete arrival step, and
the guard characterisation holds on a concrete launch loop run. -/
theorem c5_launch_caps_witness :
    CapInv 10 (arriveStep gs0 (wEx 1 3)) ∧
    (0 < (launchLoop 10 0 [cfgSmall] Resources.zero 0).2.2.2.length →
      0 + 0 < maxPending ∧ 0 + (0 + 0) < 10) :=
  ⟨(c5_launch_caps (κ := Fin 1)).2.1 maEx 10 gs0 (arriveStep gs0 (wEx 1 3))
      ⟨rfl, by funext i; simp [gs0, sumRes, Resources.add, Resources.zero, resOf1, cfgSmall]⟩
      ⟨by norm_num [gs0, maxPending], by norm_num [gs0]⟩
      (GrowStep.arrive gs0 (wEx 1 3)),
    fun h => ((c5_launch_caps (κ := Fin 1)).2.2 10 0 [cfgSmall] Resources.zero 0 0).1 h⟩

end ClaimC5

section ClaimC6

/-- C6.  Once `Allocate` enters its retry loop, it returns in exactly two
ways: a direct allocation attempt (from the waiter-signal case or the
ticker case) succeeds, returning that alloc with a nil error; or the
caller's context is done, returning a nil alloc with exactly the context's
own error.  On any trace of failed attempts the loop keeps running. -/
theorem c6_allocate_retry_loop {α ε : Type} :
    (∀ (evs : List (AllocEvent α ε)) (r : Option α × Option ε),
      allocLoop evs = some r →
        (∃ a, r = (some a, none) ∧
          (AllocEvent.needReady (some a) ∈ evs ∨ AllocEvent.tick (some a) ∈ evs)) ∨
        (∃ e, r = (none, some e) ∧ AllocEvent.ctxDone e ∈ evs)) ∧
    (∀ evs : List (AllocEvent α ε),
      (∀ ev ∈ evs, ev = AllocEvent.needReady none ∨ ev = AllocEvent.tick none) →
      allocLoop evs = none) := by
  constructor
  · intro evs
    induction evs with
    | nil => intro r h; simp [allocLoop] at h
    | cons ev rest ih =>
        intro r h
        cases ev with
        | ctxDone e =>
            simp only [allocLoop, Option.some.injEq] at h
            right
            exact ⟨e, h.symm, List.mem_cons_self _ _⟩
        | needReady attempt =>
            cases attempt with
            | some a =>
                simp only [allocLoop, Option.some.injEq] at h
                left
                exact ⟨a, h.symm, Or.inl (List.mem_cons_self _ _)⟩
            | none =>
                simp only [allocLoop] at h
                rcases ih r h with ⟨a, hr, hm⟩ | ⟨e, hr, hm⟩
                · exact Or.inl ⟨a, hr, hm.imp (List.mem_cons_of_mem _)
                    (List.mem_cons_of_mem _)⟩
                · exact Or.inr ⟨e, hr, List.mem_cons_of_mem _ hm⟩
        | tick attempt =>
            cases attempt with
            | some a =>
                simp only [allocLoop, Option.some.injEq] at h
                left
                exact ⟨a, h.symm, Or.inr (List.mem_cons_self _ _)⟩
            | none =>
                simp only [allocLoop] at h
                rcases ih r h with ⟨a, hr, hm⟩ | ⟨e, hr, hm⟩
                · exact Or.inl ⟨a, hr, hm.imp (List.mem_cons_of_mem _)
                    (List.mem_cons_of_mem _)⟩
                · exact Or.inr ⟨e, hr, List.mem_cons_of_mem _ hm⟩
  · intro evs
    induction evs with
    | nil => intro _; rfl
    | cons ev rest ih =>
        intro h
        rcases h ev (List.mem_cons_self _ _) with he | he
        · subst he
          exact ih fun x hx => h x (List.mem_cons_of_mem _ hx)
        · subst he
          exact ih fun x hx => h x (List.mem_cons_of_mem _ hx)

/-- Witness for C6 on concrete traces: a trace ending in the context being
cancelled returns the context's error, and a trace of failed attempts
keeps looping. -/
theorem c6_allocate_retry_loop_witness :
    ((AllocEvent.needReady (α := ℕ) (ε := String) none) =
        AllocEvent.needReady none ∨
      (AllocEvent.needReady (α := ℕ) (ε := String) none) = AllocEvent.tick none) ∧
    allocLoop [AllocEvent.needReady (α := ℕ) (ε := String) none,
      AllocEvent.tick none] = none :=
  ⟨Or.inl rfl,
    (c6_allocate_retry_loop (α := ℕ) (ε := String)).2
      [AllocEvent.needReady none, AllocEvent.tick none]
      (by
        intro ev hev
        simp only [List.mem_cons, List.not_mem_nil, or_false] at hev
        rcases hev with h | h
        · left; rw [h]
        · right; rw [h])⟩

end ClaimC6

section ClaimC7

/-- C7.  A requirement whose `Min` no admissible instance shape can
satisfy (ignoring demotion) makes `Allocate` fail fast: it returns the
resources-exhausted error synchronously, registers no waiter (so nothing
can ever launch or retry on its behalf), and `availableAny` is false
exactly when every admissible shape falls short of the requirement in
some dimension. -/
theorem c7_unsatisfiable_fail_fast {κ : Type} [DecidableEq κ] [Fintype κ]
    (configs : List (InstanceConfig κ)) (size : ℕ) (poolHit : Bool)
    (req : Waiter κ) :
    (availableAny configs req.rmin = false →
      allocateEntry configs size poolHit req = (AllocEntry.exhausted, [])) ∧
    (availableAny configs req.rmin = false ↔
      ∀ c ∈ configs, ¬ ∀ i, req.rmin i ≤ c.res i) := by
  constructor
  · intro h
    simp [allocateEntry, h]
  · rw [availableAny, List.any_eq_false]
    constructor
    · intro h c hc
      have := h c hc
      simpa [Resources.lessEqualAll] using this
    · intro h c hc
      simpa [Resources.lessEqualAll] using h c hc

/-- Witness for C7: a demand of 5 units against a catalog whose only shape
offers 2 makes the entry point fail fast. -/
theorem c7_unsatisfiable_fail_fast_witness :
    allocateEntry [cfgSmall] 3 true (wEx 5 9) = (AllocEntry.exhausted, []) :=
  (c7_unsatisfiable_fail_fast [cfgSmall] 3 true (wEx 5 9)).1 (by decide)

end ClaimC7

section ClaimC3

/-- A lookup succeeds exactly for ids present among the keys. -/
lemma lookupId_isSome_iff {β : Type} (m : List (String × β)) (id : String) :
    (lookupId m id).isSome ↔ id ∈ keysOf m := by
  induction m with
  | nil => simp [lookupId, keysOf]
  | cons p rest ih =>
      show (if p.1 = id then some p.2 else lookupId rest id).isSome ↔ _
      by_cases hp : p.1 = id
      · simp [hp, keysOf]
      · simp only [hp, if_false]
        rw [ih]
        show _ ↔ id ∈ p.1 :: keysOf rest
        constructor
        · exact fun h => List.mem_cons_of_mem _ h
        · intro h
          rcases List.mem_cons.mp h with h | h
          · exact absurd h.symm hp
          · exact h

/-- Concatenating the id pages reproduces the id list. -/
lemma chunkIds_flatten : ∀ (n : ℕ) (ids : List String), ids.length ≤ n →
    (chunkIds ids).flatten = ids := by
  intro n
  induction n with
  | zero =>
      intro ids h
      have : ids = [] := List.eq_nil_of_length_eq_zero (Nat.le_zero.mp h)
      subst this
      rw [chunkIds]
      simp
  | succ n ih =>
      intro ids h
      rw [chunkIds]
      by_cases hnil : ids = []
      · simp [hnil]
      · simp only [hnil, if_false]
        by_cases hlen : ec2MaxFilter < ids.length
        · simp only [hlen, if_true, List.flatten_cons]
          rw [ih (ids.drop ec2MaxFilter) (by
            rw [List.length_drop]
            have hpos : 0 < ids.length := List.length_pos.mpr hnil
            have he : ec2MaxFilter = 200 := rfl
            omega)]
          exact List.take_append_drop _ _
        · simp [hlen]

/-- Every id page respects the EC2 filter limit. -/
lemma chunkIds_page_le : ∀ (n : ℕ) (ids : List String), ids.length ≤ n →
    ∀ pg ∈ chunkIds ids, pg.length ≤ ec2MaxFilter := by
  intro n
  induction n with
  | zero =>
      intro ids h
      have : ids = [] := List.eq_nil_of_length_eq_zero (Nat.le_zero.mp h)
      subst this
      rw [chunkIds]
      simp
  | succ n ih =>
      intro ids h pg hpg
      rw [chunkIds] at hpg
      by_cases hnil : ids = []
      · simp [hnil] at hpg
      · simp only [hnil, if_false] at hpg
        by_cases hlen : ec2MaxFilter < ids.length
        · simp only [hlen, if_true, List.mem_cons] at hpg
          rcases hpg with hpg | hpg
          · subst hpg
            simp [List.length_take]
          · exact ih (ids.drop ec2MaxFilter) (by
              rw [List.length_drop]
              have hpos : 0 < ids.length := List.length_pos.mpr hnil
              have he : ec2MaxFilter = 200 := rfl
              omega) pg hpg
        · simp only [hlen, if_false, List.mem_singleton] at hpg
          subst hpg
          omega

/-- A provider that reports each queried id according to the per-id view
`resp` (ids with `resp id = none` are missing from the response). -/
def perIdResp (resp : String → Option String) (q : List String) :
    List (String × String) :=
  q.filterMap fun id => (resp id).map fun st => (id, st)

/-- The describe operation induced by a per-id view: always succeeds. -/
def perIdDescribe {ε : Type} (resp : String → Option String) :
    List String → Except ε (List (String × String)) :=
  fun q => Except.ok (perIdResp resp q)

/-- Whether the per-id view reports this id in a non-terminal state. -/
def reportedLive (resp : String → Option String) (id : String) : Bool :=
  match resp id with
  | some st => decide (st ∉ deadStates)
  | none => false

/-- Page processing under a per-id provider marks live exactly the queried
ids that are durable and reported in a non-terminal state. -/
lemma pageLive_perId (m : InstMap) (resp : String → Option String)
    (q : List String) :
    pageLive m (perIdResp resp q) =
      q.filter fun id => (lookupId m id).isSome && reportedLive resp id := by
  induction q with
  | nil => rfl
  | cons id rest ih =>
      cases hr : resp id with
      | none =>
          have h1 : perIdResp resp (id :: rest) = perIdResp resp rest := by
            simp [perIdResp, List.filterMap_cons, hr]
          have h2 : reportedLive resp id = false := by simp [reportedLive, hr]
          rw [h1, ih, List.filter_cons]
          simp [h2]
      | some st =>
          have h1 : perIdResp resp (id :: rest) = (id, st) :: perIdResp resp rest := by
            simp [perIdResp, List.filterMap_cons, hr]
          have h2 : reportedLive resp id = decide (st ∉ deadStates) := by
            simp [reportedLive, hr]
          rw [h1, List.filter_cons, h2]
          by_cases hlk : (lookupId m id).isSome
          · obtain ⟨v, hv⟩ := Option.isSome_iff_exists.mp hlk
            by_cases hd : st ∈ deadStates
            · have h3 : pageLive m ((id, st) :: perIdResp resp rest) =
                  pageLive m (perIdResp resp rest) := by
                simp [pageLive, List.filterMap_cons, hv, hd]
              rw [h3, ih]
              simp [hd]
            · have h3 : pageLive m ((id, st) :: perIdResp resp rest) =
                  id :: pageLive m (perIdResp resp rest) := by
                simp [pageLive, List.filterMap_cons, hv, hd]
              rw [h3, ih]
              simp [hlk, hd]
          · have hnone : lookupId m id = none := Option.not_isSome_iff_eq_none.mp hlk
            have h3 : pageLive m ((id, st) :: perIdResp resp rest) =
                pageLive m (perIdResp resp rest) := by
              simp [pageLive, List.filterMap_cons, hnone]
            rw [h3, ih]
            simp [hlk]

/-- Collecting the pages of a per-id provider filters the concatenated
queried ids. -/
lemma livePages_perId {ε : Type} (m : InstMap) (resp : String → Option String) :
    ∀ pgs : List (List String),
      livePages m (perIdDescribe (ε := ε) resp) pgs =
        Except.ok (pgs.flatten.filter fun id =>
          (lookupId m id).isSome && reportedLive resp id)
  | [] => by simp [livePages]
  | pg :: rest => by
      simp only [livePages, perIdDescribe]
      rw [livePages_perId m resp rest]
      simp only [List.flatten_cons, List.filter_append, pageLive_perId]

end ClaimC3

section ClaimC3Main

/-- C3.  A reconcile cycle against a provider that reports each queried id
per the view `resp` queries the durable ids in pages of at most
`ec2MaxFilter = 200` whose concatenation is exactly the durable id list,
and produces exactly the durable entries whose reported lifecycle state is
not terminal (`shutting-down`, `terminated`, `stopping`, `stopped`) and
which are present in the response — i.e. it removes exactly the dead
entries and preserves every other entry unchanged, in order, for durable
sets of any size (including over multiple pages). -/
theorem c3_reconcile_classification (m : InstMap) (resp : String → Option String) :
    reconcile m (perIdDescribe (ε := Unit) resp) =
      Except.ok (m.filter fun p => reportedLive resp p.1) ∧
    (∀ pg ∈ chunkIds (keysOf m), pg.length ≤ ec2MaxFilter) ∧
    (chunkIds (keysOf m)).flatten = keysOf m := by
  have hflat := chunkIds_flatten (keysOf m).length (keysOf m) (le_refl _)
  refine ⟨?_, chunkIds_page_le (keysOf m).length (keysOf m) (le_refl _), hflat⟩
  unfold reconcile
  rw [livePages_perId, hflat]
  show Except.ok (removeIds m _) = _
  congr 1
  unfold removeIds
  apply List.filter_congr
  intro p hp
  have hkey : p.1 ∈ keysOf m := List.mem_map_of_mem Prod.fst hp
  have hsome : (lookupId m p.1).isSome := (lookupId_isSome_iff m p.1).mpr hkey
  by_cases hrep : reportedLive resp p.1 = true
  · have hlive : p.1 ∈ (keysOf m).filter
        (fun id => (lookupId m id).isSome && reportedLive resp id) := by
      rw [List.mem_filter]
      exact ⟨hkey, by rw [Bool.and_eq_true]; exact ⟨hsome, hrep⟩⟩
    rw [hrep]
    apply decide_eq_true
    intro hdead
    rw [List.mem_filter] at hdead
    exact (of_decide_eq_true hdead.2) hlive
  · have hnlive : p.1 ∉ (keysOf m).filter
        (fun id => (lookupId m id).isSome && reportedLive resp id) := by
      intro hmem
      rw [List.mem_filter, Bool.and_eq_true] at hmem
      exact hrep hmem.2.2
    have hdead : p.1 ∈ (keysOf m).filter
        (fun id => decide (id ∉ (keysOf m).filter
          fun id => (lookupId m id).isSome && reportedLive resp id)) := by
      rw [List.mem_filter]
      exact ⟨hkey, decide_eq_true hnlive⟩
    rw [Bool.eq_false_iff.mpr hrep]
    apply decide_eq_false
    intro hnot
    exact hnot hdead

/-- A concrete durable map: one running instance, one terminated one. -/
def m0 : InstMap :=
  [("i-1", ⟨"i-1", "running", "dns1"⟩), ("i-2", ⟨"i-2", "terminated", "dns2"⟩)]

/-- A concrete per-id provider view matching `m0`'s states. -/
def resp0 : String → Option String := fun id =>
  if id = "i-1" then some "running"
  else if id = "i-2" then some "terminated"
  else none

/-- Witness for C3 at the concrete durable map `m0`. -/
theorem c3_reconcile_classification_witness :
    reconcile m0 (perIdDescribe (ε := Unit) resp0) =
      Except.ok (m0.filter fun p => reportedLive resp0 p.1) ∧
    (∀ pg ∈ chunkIds (keysOf m0), pg.length ≤ ec2MaxFilter) ∧
    (chunkIds (keysOf m0)).flatten = keysOf m0 :=
  c3_reconcile_classification m0 resp0

end ClaimC3Main

section ClaimC8

/-- If every page before `pg` succeeds and `pg`'s describe call fails with
`e`, the page collection aborts with exactly `e`. -/
lemma livePages_error {ε : Type} (m : InstMap)
    (d : List String → Except ε (List (String × String))) :
    ∀ (pre : List (List String)) (pg : List String)
      (rest : List (List String)) (e : ε),
      (∀ q ∈ pre, ∃ r, d q = Except.ok r) → d pg = Except.error e →
      livePages m d (pre ++ pg :: rest) = Except.error e
  | [], pg, rest, e => by
      intro _ herr
      simp [livePages, herr]
  | q :: pre', pg, rest, e => by
      intro hok herr
      obtain ⟨r, hr⟩ := hok q (List.mem_cons_self _ _)
      have ih := livePages_error m d pre' pg rest e
        (fun x hx => hok x (List.mem_cons_of_mem _ hx)) herr
      simp [livePages, hr, ih]

/-- C8.  If any paged describe call fails during a reconcile cycle (say
page `pg`, the first failing one, fails with error `e`), `reconcile`
returns exactly that error and the maintenance cycle leaves the durable
instance set completely unchanged — no entry is removed, even for pages
already processed before the failure. -/
theorem c8_reconcile_error_leaves_state {ε : Type} (m : InstMap)
    (d : List String → Except ε (List (String × String)))
    (pre : List (List String)) (pg : List String)
    (rest : List (List String)) (e : ε)
    (hch : chunkIds (keysOf m) = pre ++ pg :: rest)
    (hok : ∀ q ∈ pre, ∃ r, d q = Except.ok r)
    (herr : d pg = Except.error e) :
    reconcile m d = Except.error e ∧ maintainStep m d = m := by
  have hlive : livePages m d (chunkIds (keysOf m)) = Except.error e := by
    rw [hch]
    exact livePages_error m d pre pg rest e hok herr
  have hrec : reconcile m d = Except.error e := by
    unfold reconcile
    rw [hlive]
  refine ⟨hrec, ?_⟩
  unfold maintainStep
  rw [hrec]

/-- A describe operation that always fails. -/
def derr : List String → Except String (List (String × String)) :=
  fun _ => Except.error "boom"

/-- The two-entry map `m0` fits in a single page. -/
lemma chunkIds_m0 : chunkIds (keysOf m0) = [keysOf m0] := by
  rw [chunkIds]
  simp [keysOf, m0, ec2MaxFilter]

/-- Witness for C8: a failing describe call leaves `m0` untouched. -/
theorem c8_reconcile_error_leaves_state_witness :
    reconcile m0 derr = Except.error "boom" ∧ maintainStep m0 derr = m0 :=
  c8_reconcile_error_leaves_state m0 derr [] (keysOf m0) [] "boom"
    chunkIds_m0 (by intro q hq; cases hq) rfl

end ClaimC8

section ClaimC10

/-- Unfolding one response entry of the page scan. -/
lemma pageLive_cons (m : InstMap) (p : String × String)
    (l : List (String × String)) :
    pageLive m (p :: l) =
      if (lookupId m p.1).isNone then pageLive m l
      else if p.2 ∈ deadStates then pageLive m l
      else p.1 :: pageLive m l := by
  simp only [pageLive, List.filterMap_cons]
  by_cases h1 : (lookupId m p.1).isNone
  · simp [h1]
  · by_cases h2 : p.2 ∈ deadStates
    · simp [h1, h2]
    · simp [h1, h2]

/-- Entries of the response that are not in the durable map contribute
nothing to the live set. -/
lemma pageLive_filter_durable (m : InstMap) (resp : List (String × String)) :
    pageLive m (resp.filter fun p => (lookupId m p.1).isSome) =
      pageLive m resp := by
  induction resp with
  | nil => rfl
  | cons p rest ih =>
      rw [List.filter_cons]
      by_cases hlk : (lookupId m p.1).isSome
      · obtain ⟨v, hv⟩ := Option.isSome_iff_exists.mp hlk
        simp only [hlk, if_true]
        rw [pageLive_cons, pageLive_cons, hv]
        by_cases hd : p.2 ∈ deadStates
        · simp [hd, ih]
        · simp [hd, ih]
      · have hnone : lookupId m p.1 = none := Option.not_isSome_iff_eq_none.mp hlk
        simp only [hlk, Bool.false_eq_true, if_false]
        rw [ih, pageLive_cons, hnone]
        simp

/-- Filtering responses down to durable ids changes nothing about the
collected live set. -/
lemma livePages_filter_durable {ε : Type} (m : InstMap)
    (d : List String → Except ε (List (String × String))) :
    ∀ pgs : List (List String),
      livePages m (fun q => (d q).map fun resp =>
        resp.filter fun p => (lookupId m p.1).isSome) pgs =
      livePages m d pgs
  | [] => rfl
  | pg :: rest => by
      have ih := livePages_filter_durable m d rest
      simp only [livePages]
      rw [ih]
      cases hd : d pg with
      | error e => rfl
      | ok resp =>
          show (match livePages m d rest with
            | Except.error e => Except.error e
            | Except.ok live => Except.ok
                (pageLive m (resp.filter fun p => (lookupId m p.1).isSome) ++ live)) = _
          simp only [pageLive_filter_durable]

/-- C10.  Reconcile never adds entries: a successful cycle returns a
sublist of the durable map (it only removes entries that were present,
preserving everything else in place), and instance ids appearing in the
provider's responses but absent from the durable map are ignored
entirely — filtering them away from every response changes nothing. -/
theorem c10_reconcile_removal_only {ε : Type} (m : InstMap)
    (d : List String → Except ε (List (String × String))) :
    (∀ m2 : InstMap, reconcile m d = Except.ok m2 → m2.Sublist m) ∧
    reconcile m (fun q => (d q).map fun resp =>
      resp.filter fun p => (lookupId m p.1).isSome) = reconcile m d := by
  constructor
  · intro m2 h
    unfold reconcile at h
    cases hl : livePages m d (chunkIds (keysOf m)) with
    | error e => rw [hl] at h; cases h
    | ok live =>
        rw [hl] at h
        have : m2 = removeIds m ((keysOf m).filter fun id => decide (id ∉ live)) := by
          cases h; rfl
        rw [this]
        exact List.filter_sublist m
  · unfold reconcile
    rw [livePages_filter_durable]

/-- An always-empty describe response. -/
def dempty : List String → Except String (List (String × String)) :=
  fun _ => Except.ok []

/-- Under an empty response everything is classified dead and removed. -/
lemma reconcile_m0_dempty : reconcile m0 dempty = Except.ok [] := by
  unfold reconcile
  rw [chunkIds_m0]
  show (match livePages m0 dempty [keysOf m0] with
    | Except.error e => Except.error e
    | Except.ok live => Except.ok (removeIds m0
        ((keysOf m0).filter fun id => decide (id ∉ live)))) = _
  have h1 : livePages m0 dempty [keysOf m0] = Except.ok [] := by
    simp [livePages, dempty, pageLive]
  rw [h1]
  simp [removeIds, keysOf, m0, List.filter_cons]

/-- Witness for C10: removal-only on the concrete map `m0` with the empty
response, and response-junk invariance for `m0`. -/
theorem c10_reconcile_removal_only_witness :
    ([] : InstMap).Sublist m0 ∧
    reconcile m0 (fun q => (dempty q).map fun resp =>
      resp.filter fun p => (lookupId m0 p.1).isSome) = reconcile m0 dempty :=
  ⟨(c10_reconcile_removal_only m0 dempty).1 [] reconcile_m0_dempty,
    (c10_reconcile_removal_only m0 dempty).2⟩

end ClaimC10

section ClaimC4

variable {χ : Type}

/-- A successful Go-map read of a member entry under unique keys. -/
lemma lookupId_of_mem_nodup {β : Type} (l : List (String × β))
    (p : String × β) (hp : p ∈ l) (hnd : (keysOf l).Nodup) :
    lookupId l p.1 = some p.2 := by
  induction l with
  | nil => cases hp
  | cons q rest ih =>
      rcases List.mem_cons.mp hp with hq | hq
      · subst hq
        simp [lookupId]
      · have hnd' : (keysOf rest).Nodup := (List.nodup_cons.mp hnd).2
        have hqk : q.1 ∉ keysOf rest := (List.nodup_cons.mp hnd).1
        have hpk : p.1 ∈ keysOf rest := List.mem_map_of_mem Prod.fst hq
        have hne : ¬ q.1 = p.1 := fun h => hqk (h ▸ hpk)
        simp only [lookupId, hne, if_false]
        exact ih hq hnd'

/-- A `poolAt` hit means the key is stored. -/
lemma poolAt_isSome_lookup (pools : List (String × Option χ)) (id : String)
    (h : ¬ (poolAt pools id).isNone) : (lookupId pools id).isSome := by
  unfold poolAt at h
  cases hl : lookupId pools id
  · rw [hl] at h
    simp at h
  · rfl

/-- Key membership after a Go map assignment on the pools map. -/
lemma mem_keysOf_setPool (pools : List (String × Option χ)) (id0 : String)
    (v : Option χ) (id : String) :
    id ∈ keysOf (setPool pools id0 v) ↔ id = id0 ∨ id ∈ keysOf pools := by
  unfold setPool
  by_cases hs : (lookupId pools id0).isSome
  · simp only [hs, if_true]
    have hk : keysOf (pools.map fun p => if p.1 = id0 then (id0, v) else p) =
        keysOf pools := by
      unfold keysOf
      rw [List.map_map]
      apply List.map_congr_left
      intro p _
      by_cases hp : p.1 = id0
      · simp [hp]
      · simp [hp]
    rw [hk]
    constructor
    · exact Or.inr
    · rintro (h | h)
      · subst h
        exact (lookupId_isSome_iff pools id).mp hs
      · exact h
  · simp only [hs, if_false, Bool.false_eq_true, keysOf, List.map_append]
    show id ∈ keysOf pools ++ [id0] ↔ _
    rw [List.mem_append]
    constructor
    · rintro (h | h)
      · exact Or.inr h
      · exact Or.inl (List.mem_singleton.mp h)
    · rintro (h | h)
      · exact Or.inr (h ▸ List.mem_singleton_self id)
      · exact Or.inl h

/-- Key uniqueness survives a Go map assignment. -/
lemma nodup_setPool (pools : List (String × Option χ)) (id0 : String)
    (v : Option χ) (hnd : (keysOf pools).Nodup) :
    (keysOf (setPool pools id0 v)).Nodup := by
  unfold setPool
  by_cases hs : (lookupId pools id0).isSome
  · simp only [hs, if_true]
    have hk : keysOf (pools.map fun p => if p.1 = id0 then (id0, v) else p) =
        keysOf pools := by
      unfold keysOf
      rw [List.map_map]
      apply List.map_congr_left
      intro p _
      by_cases hp : p.1 = id0
      · simp [hp]
      · simp [hp]
    rw [hk]
    exact hnd
  · simp only [hs, if_false, Bool.false_eq_true]
    show (keysOf (pools ++ [(id0, v)])).Nodup
    unfold keysOf
    rw [List.map_append]
    rw [List.nodup_append]
    refine ⟨hnd, List.nodup_singleton _, ?_⟩
    intro a ha hb
    have hb' : a = id0 := List.mem_singleton.mp hb
    subst hb'
    exact hs ((lookupId_isSome_iff pools a).mpr ha)

/-- Membership after a Go map assignment: the new entry, or an untouched
old entry under a different key. -/
lemma mem_setPool (pools : List (String × Option χ)) (id0 : String)
    (v : Option χ) (p : String × Option χ)
    (hp : p ∈ setPool pools id0 v) :
    p = (id0, v) ∨ (p ∈ pools ∧ p.1 ≠ id0) := by
  unfold setPool at hp
  by_cases hs : (lookupId pools id0).isSome
  · rw [if_pos hs] at hp
    obtain ⟨q, hq, hfq⟩ := List.mem_map.mp hp
    by_cases hq0 : q.1 = id0
    · rw [if_pos hq0] at hfq
      exact Or.inl hfq.symm
    · rw [if_neg hq0] at hfq
      exact Or.inr ⟨hfq ▸ hq, hfq ▸ hq0⟩
  · rw [if_neg hs] at hp
    rcases List.mem_append.mp hp with h | h
    · have hk : p.1 ∈ keysOf pools := List.mem_map_of_mem Prod.fst h
      refine Or.inr ⟨h, fun hid => ?_⟩
      exact hs ((lookupId_isSome_iff pools id0).mpr (hid ▸ hk))
    · exact Or.inl (List.mem_singleton.mp h)

/-- The keys present after the first `update` loop are exactly the old
pool keys together with the durable keys. -/
lemma mem_keysOf_addMissingPools (mk : String → Option χ) :
    ∀ (m : InstMap) (pools : List (String × Option χ)),
      (∀ p ∈ m, p.2.instanceId = p.1) →
      ∀ id, id ∈ keysOf (addMissingPools mk m pools) ↔
        id ∈ keysOf pools ∨ id ∈ keysOf m
  | [], pools => by
      intro _ id
      simp [addMissingPools, keysOf]
  | (id0, inst) :: rest, pools => by
      intro hc id
      have hid0 : inst.instanceId = id0 := hc (id0, inst) (List.mem_cons_self _ _)
      have hcr : ∀ p ∈ rest, p.2.instanceId = p.1 :=
        fun p hp => hc p (List.mem_cons_of_mem _ hp)
      have hun : addMissingPools mk ((id0, inst) :: rest) pools =
          if (poolAt pools id0).isNone then
            addMissingPools mk rest (setPool pools inst.instanceId (mk inst.publicDnsName))
          else addMissingPools mk rest pools := rfl
      rw [hun]
      by_cases hpa : (poolAt pools id0).isNone
      · rw [if_pos hpa]
        rw [mem_keysOf_addMissingPools mk rest _ hcr id]
        rw [hid0, mem_keysOf_setPool]
        show _ ↔ id ∈ keysOf pools ∨ id ∈ id0 :: keysOf rest
        rw [List.mem_cons]
        tauto
      · rw [if_neg hpa]
        rw [mem_keysOf_addMissingPools mk rest pools hcr id]
        have h0 : id0 ∈ keysOf pools :=
          (lookupId_isSome_iff pools id0).mp (poolAt_isSome_lookup pools id0 hpa)
        show _ ↔ id ∈ keysOf pools ∨ id ∈ id0 :: keysOf rest
        rw [List.mem_cons]
        constructor
        · rintro (h | h)
          · exact Or.inl h
          · exact Or.inr (Or.inr h)
        · rintro (h | h | h)
          · exact Or.inl h
          · exact Or.inl (h ▸ h0)
          · exact Or.inr h

/-- Key uniqueness survives the first `update` loop. -/
lemma nodup_addMissingPools (mk : String → Option χ) :
    ∀ (m : InstMap) (pools : List (String × Option χ)),
      (keysOf pools).Nodup → (keysOf (addMissingPools mk m pools)).Nodup
  | [], _ => fun h => h
  | (id0, inst) :: rest, pools => by
      intro hnd
      have hun : addMissingPools mk ((id0, inst) :: rest) pools =
          if (poolAt pools id0).isNone then
            addMissingPools mk rest (setPool pools inst.instanceId (mk inst.publicDnsName))
          else addMissingPools mk rest pools := rfl
      rw [hun]
      by_cases hpa : (poolAt pools id0).isNone
      · rw [if_pos hpa]
        exact nodup_addMissingPools mk rest _ (nodup_setPool _ _ _ hnd)
      · rw [if_neg hpa]
        exact nodup_addMissingPools mk rest pools hnd

/-- After the first `update` loop, every entry either carries a live
handle or is an untouched old entry whose id has no durable backing. -/
lemma addMissingPools_values (mk : String → Option χ) :
    ∀ (m : InstMap) (pools : List (String × Option χ)),
      (∀ p ∈ m, p.2.instanceId = p.1) →
      (∀ p ∈ m, (mk p.2.publicDnsName).isSome) →
      (keysOf pools).Nodup →
      ∀ p ∈ addMissingPools mk m pools,
        p.2.isSome ∨ (p ∈ pools ∧ p.1 ∉ keysOf m)
  | [], pools => by
      intro _ _ _ p hp
      exact Or.inr ⟨hp, by simp [keysOf]⟩
  | (id0, inst) :: rest, pools => by
      intro hc hmk hnd p hp
      have hid0 : inst.instanceId = id0 := hc _ (List.mem_cons_self _ _)
      have hcr : ∀ q ∈ rest, q.2.instanceId = q.1 :=
        fun q hq => hc q (List.mem_cons_of_mem _ hq)
      have hmkr : ∀ q ∈ rest, (mk q.2.publicDnsName).isSome :=
        fun q hq => hmk q (List.mem_cons_of_mem _ hq)
      have hmk0 : (mk inst.publicDnsName).isSome := hmk _ (List.mem_cons_self _ _)
      have hun : addMissingPools mk ((id0, inst) :: rest) pools =
          if (poolAt pools id0).isNone then
            addMissingPools mk rest (setPool pools inst.instanceId (mk inst.publicDnsName))
          else addMissingPools mk rest pools := rfl
      rw [hun] at hp
      by_cases hpa : (poolAt pools id0).isNone
      · rw [if_pos hpa] at hp
        rcases addMissingPools_values mk rest _ hcr hmkr
            (nodup_setPool _ _ _ hnd) p hp with h | ⟨hmem, hnk⟩
        · exact Or.inl h
        · rcases mem_setPool pools inst.instanceId (mk inst.publicDnsName) p hmem with
            he | ⟨hpl, hne⟩
          · rw [he]
            exact Or.inl hmk0
          · refine Or.inr ⟨hpl, ?_⟩
            show p.1 ∉ id0 :: keysOf rest
            rw [List.mem_cons]
            rintro (h | h)
            · exact hne (hid0 ▸ h)
            · exact hnk h
      · rw [if_neg hpa] at hp
        rcases addMissingPools_values mk rest pools hcr hmkr hnd p hp with
          h | ⟨hmem, hnk⟩
        · exact Or.inl h
        · by_cases hpk : p.1 = id0
          · left
            have hl := lookupId_of_mem_nodup pools p hmem hnd
            have hj : poolAt pools id0 = p.2 := by
              unfold poolAt
              rw [← hpk, hl]
              rfl
            rw [hj] at hpa
            cases hv : p.2
            · rw [hv] at hpa
              simp at hpa
            · rfl
          · refine Or.inr ⟨hmem, ?_⟩
            show p.1 ∉ id0 :: keysOf rest
            rw [List.mem_cons]
            rintro (h | h)
            · exact hpk h
            · exact hnk h

/-- Key membership in a filter whose predicate depends only on the key. -/
lemma mem_keysOf_filter_key {β : Type} (l : List (String × β))
    (q : String → Bool) (id : String) :
    id ∈ keysOf (l.filter fun p => q p.1) ↔ id ∈ keysOf l ∧ q id := by
  induction l with
  | nil => simp [keysOf]
  | cons p rest ih =>
      rw [List.filter_cons]
      by_cases hq : q p.1
      · simp only [hq, if_true]
        show id ∈ p.1 :: keysOf (rest.filter _) ↔ id ∈ p.1 :: keysOf rest ∧ q id = true
        rw [List.mem_cons, List.mem_cons, ih]
        constructor
        · rintro (h | ⟨h1, h2⟩)
          · exact ⟨Or.inl h, h ▸ hq⟩
          · exact ⟨Or.inr h1, h2⟩
        · rintro ⟨h1 | h1, h2⟩
          · exact Or.inl h1
          · exact Or.inr ⟨h1, h2⟩
      · simp only [hq, Bool.false_eq_true, if_false]
        rw [ih]
        show _ ↔ id ∈ p.1 :: keysOf rest ∧ q id = true
        rw [List.mem_cons]
        constructor
        · rintro ⟨h1, h2⟩
          exact ⟨Or.inr h1, h2⟩
        · rintro ⟨h1 | h1, h2⟩
          · subst h1
            exact absurd h2 hq
          · exact ⟨h1, h2⟩

/-- C4.  After every capacity-view rebuild (`update`), provided every
durable entry is keyed by its descriptor's id and the handle constructor
succeeds on every durable address, the pool map's keys are exactly the
durable ids (one entry per durable instance, none for ids without durable
backing), the keys stay unique, and every surviving entry holds a live
(non-nil) handle. -/
theorem c4_capacity_view_rebuild {χ : Type} (mk : String → Option χ)
    (m : InstMap) (pools : List (String × Option χ))
    (hc : ∀ p ∈ m, p.2.instanceId = p.1)
    (hmk : ∀ p ∈ m, (mk p.2.publicDnsName).isSome)
    (hnd : (keysOf pools).Nodup) :
    (∀ id, id ∈ keysOf (updatePools mk m pools) ↔ id ∈ keysOf m) ∧
    (keysOf (updatePools mk m pools)).Nodup ∧
    (∀ p ∈ updatePools mk m pools, p.2.isSome) := by
  refine ⟨?_, ?_, ?_⟩
  · intro id
    unfold updatePools
    have hkf := mem_keysOf_filter_key (addMissingPools mk m pools)
      (fun i => (lookupId m i).isSome) id
    rw [hkf, mem_keysOf_addMissingPools mk m pools hc id]
    constructor
    · rintro ⟨_, h2⟩
      exact (lookupId_isSome_iff m id).mp h2
    · intro h
      exact ⟨Or.inr h, (lookupId_isSome_iff m id).mpr h⟩
  · unfold updatePools
    have hsub : keysOf ((addMissingPools mk m pools).filter
        fun p => (lookupId m p.1).isSome) |>.Sublist
        (keysOf (addMissingPools mk m pools)) :=
      List.Sublist.map Prod.fst (List.filter_sublist _)
    exact List.Nodup.sublist hsub (nodup_addMissingPools mk m pools hnd)
  · intro p hp
    unfold updatePools at hp
    rw [List.mem_filter] at hp
    rcases addMissingPools_values mk m pools hc hmk hnd p hp.1 with h | ⟨_, hnk⟩
    · exact h
    · exact absurd ((lookupId_isSome_iff m p.1).mp hp.2) hnk

/-- A handle constructor that always succeeds. -/
def mkH : String → Option String := fun dns => some dns

/-- Witness for C4: rebuilding from an empty pool map over the concrete
durable map `m0`. -/
theorem c4_capacity_view_rebuild_witness :
    (∀ id, id ∈ keysOf (updatePools mkH m0 []) ↔ id ∈ keysOf m0) ∧
    (keysOf (updatePools mkH m0 [])).Nodup ∧
    (∀ p ∈ updatePools mkH m0 [], p.2.isSome) :=
  c4_capacity_view_rebuild mkH m0 [] (by decide) (by decide) List.nodup_nil

end ClaimC4
